import Mathlib

/-!
Verification of the muds collections crates: the paged generational-index
slot map (`crates/collections/src/maps/slotmap.rs`), the sparse set
(`crates/collections/src/maps/sparseset.rs`) and the generational index
encodings (`crates/genindex/src`), modelled shallowly.  Machine `usize`/`u64`
values are modelled as `Nat`, with explicit `% 2 ^ w` where the source can
wrap; fallible lookups are `Option`.
-/

/-- `usize::MAX` on the 64-bit targets the crate is built for. -/
def usizeMax : Nat := 2 ^ 64 - 1

/-- `IndexPair<usize, usize>` from `genindex/src/pair.rs`, the default
generational index of the collections: an index and a generation stored as a
pair.  `usize` fields are modelled as `Nat`. -/
structure IndexPair where
  index : Nat
  generation : Nat
deriving DecidableEq, Repr, Inhabited

/-- `GenIndex::from_raw_parts` for `IndexPair`: just the pair constructor. -/
def IndexPair.from_raw_parts (index generation : Nat) : IndexPair :=
  ⟨index, generation⟩

/-- `GenIndex::max_generation` for `IndexPair<usize, usize>` is `usize::MAX`. -/
def IndexPair.max_generation : Nat := usizeMax

/-- `GenIndex::from_index`: the generation defaults to `Generation::one()`. -/
def IndexPair.from_index (index : Nat) : IndexPair :=
  ⟨index, 1⟩

/-- `GenIndex::next_generation`: wraps back to one at `max_generation`. -/
def IndexPair.next_generation (i : IndexPair) : IndexPair :=
  ⟨i.index, if i.generation = IndexPair.max_generation then 1 else i.generation + 1⟩

/-- `PagedSlotMap<T, IndexPair, N>` from `collections/src/maps/slotmap.rs`.
The Rust `values: Vec<Box<[MaybeUninit<T>; N]>>` page array is flattened slot
by slot: page `p`, offset `o` of the source is position `p * N + o` of
`values` here, so `values.length` is always `N` times the number of pages.
A `none` entry models an uninitialised (`MaybeUninit`) slot. -/
structure PagedSlotMap (α : Type) where
  indices : List IndexPair
  values : List (Option α)
  free_list_head : Nat
  free_list_tail : Nat
  free_list_size : Nat
deriving DecidableEq

/-- `PagedSlotMap::new`. -/
def PagedSlotMap.new {α : Type} : PagedSlotMap α :=
  ⟨[], [], 0, 0, 0⟩

/-- `PagedSlotMap::len`: `indices.len() - free_list_size`. -/
def PagedSlotMap.len {α : Type} (m : PagedSlotMap α) : Nat :=
  m.indices.length - m.free_list_size

/-- `PagedSlotMap::clear`. -/
def PagedSlotMap.clear {α : Type} (_m : PagedSlotMap α) : PagedSlotMap α :=
  ⟨[], [], 0, 0, 0⟩

/-- `PagedSlotMap::get` (slotmap.rs lines 123-130).  The `try_into` of a
`usize` index into `usize` always succeeds.  The `unsafe` initialised-slot
read is modelled by the stored `Option` (it is `none` only on states whose
read would be undefined behaviour in the source). -/
def PagedSlotMap.get {α : Type} (m : PagedSlotMap α) (key : IndexPair) : Option α :=
  match m.indices[key.index]? with
  | none => none
  | some index => if index = key then m.values.getD key.index none else none

/-- `PagedSlotMap::get_mut` (slotmap.rs lines 144-151): the validation and the
slot it reads are identical to `get`; only the mutability of the returned
reference differs, which the model does not have to distinguish. -/
def PagedSlotMap.get_mut {α : Type} (m : PagedSlotMap α) (key : IndexPair) : Option α :=
  match m.indices[key.index]? with
  | none => none
  | some index => if index = key then m.values.getD key.index none else none

/-- `PagedSlotMap::push_free_idx` (slotmap.rs lines 302-312): appends `idx`
to the tail of the free list.  `get_unchecked_mut(free_list_tail)` is
modelled with `getD`. -/
def PagedSlotMap.push_free_idx {α : Type} (m : PagedSlotMap α) (idx : Nat) : PagedSlotMap α :=
  if 0 < m.free_list_size then
    let tail_index := m.indices.getD m.free_list_tail default
    { m with
      indices := m.indices.set m.free_list_tail ⟨idx, tail_index.generation⟩
      free_list_tail := idx
      free_list_size := m.free_list_size + 1 }
  else
    { m with
      free_list_head := idx
      free_list_tail := idx
      free_list_size := m.free_list_size + 1 }

/-- `PagedSlotMap::push` (slotmap.rs lines 222-241) with page size `N`.  The
source's page-allocation guard `self.values.len() * N <= idx` is
`m.values.length ≤ idx` on the flattened page array, and pushing a fresh page
appends `N` uninitialised slots. -/
def PagedSlotMap.push {α : Type} (N : Nat) (m : PagedSlotMap α) (value : α) :
    PagedSlotMap α × IndexPair :=
  if m.free_list_size = 0 then
    let idx := m.indices.length
    let values := if m.values.length ≤ idx then m.values ++ List.replicate N none else m.values
    let index := IndexPair.from_index idx
    ({ m with
        indices := m.indices ++ [index]
        values := values.set idx (some value) }, index)
  else
    let idx := m.free_list_head
    let old := m.indices.getD idx default
    let index := IndexPair.from_raw_parts idx old.next_generation.generation
    ({ m with
        indices := m.indices.set idx index
        values := m.values.set idx (some value)
        free_list_head := old.index
        free_list_size := m.free_list_size - 1 }, index)

/-- `PagedSlotMap::remove` (slotmap.rs lines 253-262).  Returns the mutated
map together with the removed value; the value is `none` exactly on the
early-return paths, where the map is returned unchanged.  The
`assume_init_read` that moves the value out leaves the slot uninitialised. -/
def PagedSlotMap.remove {α : Type} (m : PagedSlotMap α) (key : IndexPair) :
    PagedSlotMap α × Option α :=
  match m.indices[key.index]? with
  | none => (m, none)
  | some index =>
    if index = key then
      let sentinel : Nat := if key.index = 0 then 1 else 0
      let m1 := { m with indices := m.indices.set key.index ⟨sentinel, index.generation⟩ }
      let m2 := m1.push_free_idx key.index
      ({ m2 with values := m2.values.set key.index none }, m.values.getD key.index none)
    else (m, none)

/-- The loop of `PagedSlotMap::retain` (slotmap.rs lines 280-293): walk the
index array; on each live slot run `f` (which may mutate the value, modelled
by the second component of its result); a rejected slot is dropped, its index
entry repurposed to point at the previous local `free_list_head`, and the
local head and removal count updated.  The source's `for` loop runs once per
entry of `indices`, whose length the body never changes, so the iteration is
driven by the count `todo` of remaining entries (started at the length). -/
def PagedSlotMap.retainGo {α : Type} (f : IndexPair → α → Bool × α) :
    Nat → Nat → List IndexPair → List (Option α) → Nat → Nat →
    List IndexPair × List (Option α) × Nat × Nat
  | 0, _, indices, values, fh, rc => (indices, values, fh, rc)
  | todo + 1, i, indices, values, fh, rc =>
    let index := indices.getD i default
    if index.index = i then
      match values.getD i none with
      | some v =>
        let r := f index v
        if r.1 then
          PagedSlotMap.retainGo f todo (i + 1) indices (values.set i (some r.2)) fh rc
        else
          PagedSlotMap.retainGo f todo (i + 1) (indices.set i ⟨fh, index.generation⟩)
            (values.set i none) i (rc + 1)
      | none => PagedSlotMap.retainGo f todo (i + 1) indices values fh rc
    else
      PagedSlotMap.retainGo f todo (i + 1) indices values fh rc

/-- `PagedSlotMap::retain` (slotmap.rs lines 277-299): run the loop with the
local free-list head seeded to `self.len() + 1`, then, if anything was
removed, push the final local head onto the free list and add the remaining
removal count to `free_list_size`. -/
def PagedSlotMap.retain {α : Type} (m : PagedSlotMap α) (f : IndexPair → α → Bool × α) :
    PagedSlotMap α :=
  match PagedSlotMap.retainGo f m.indices.length 0 m.indices m.values (m.len + 1) 0 with
  | (indices, values, free_list_head, remove_count) =>
    let m1 := { m with indices := indices, values := values }
    if 0 < remove_count then
      let m2 := m1.push_free_idx free_list_head
      { m2 with free_list_size := m2.free_list_size + (remove_count - 1) }
    else m1

/-- The state of the borrowed iterator `slotmap::iter::Iter`: the remaining
index slice, the value pages, and the `start`/`end` counters (`end` is a Lean
keyword, so it is called `stop` here). -/
structure SlotMapIter (α : Type) where
  index : List IndexPair
  values : List (Option α)
  start : Nat
  stop : Nat
deriving DecidableEq

/-- `PagedSlotMap::iter` (slotmap.rs lines 169-176). -/
def PagedSlotMap.iter {α : Type} (m : PagedSlotMap α) : SlotMapIter α :=
  ⟨m.indices, m.values, 0, m.len⟩

/-- `Iter::next` (slotmap.rs lines 778-792): pop the next index entry and
advance `start`; the entry is emitted only when its `index` field equals its
position, otherwise the call returns `none`.  The item's value component is
the slot's `Option`, modelling the `MaybeUninit` read. -/
def SlotMapIter.next {α : Type} (it : SlotMapIter α) :
    Option (IndexPair × Option α) × SlotMapIter α :=
  match it.index with
  | [] => (none, it)
  | index :: rest =>
    let idx := it.start
    let it' : SlotMapIter α := { it with index := rest, start := idx + 1 }
    if index.index = idx then ((some (index, it.values.getD idx none)), it')
    else (none, it')

/-- Driving `next` the way a `for` loop (or `collect`) does: keep the items
until the first call that returns `none`.  The fuel only bounds the number of
calls; each productive call consumes one element of the index slice, so
`index.length` calls always suffice. -/
def SlotMapIter.collectFuel {α : Type} : Nat → SlotMapIter α → List (IndexPair × Option α)
  | 0, _ => []
  | fuel + 1, it =>
    match it.next with
    | (none, _) => []
    | (some item, it') => item :: SlotMapIter.collectFuel fuel it'

/-- The finite sequence a `for` loop over the iterator observes. -/
def SlotMapIter.collect {α : Type} (it : SlotMapIter α) : List (IndexPair × Option α) :=
  SlotMapIter.collectFuel it.index.length it

/-- `Serialize for PagedSlotMap` (slotmap.rs lines 926-943): the pair of the
index array and the parallel array holding `some` value at live slots and
`none` (JSON `null`) at dead ones. -/
def PagedSlotMap.serialize {α : Type} (m : PagedSlotMap α) :
    List IndexPair × List (Option α) :=
  (m.indices,
    (List.range m.indices.length).map fun idx =>
      if (m.indices.getD idx default).index = idx then m.values.getD idx none else none)

/-- The loop of `Deserialize for PagedSlotMap` (slotmap.rs lines 962-996).
Arguments: remaining index entries and value options, position `i`, the
rebuilt index entries (reversed accumulator), the flushed pages (flattened),
the current page buffer, and the free-list registers.  Note the source reads
`idx` from the *stored* index field (a free-list pointer on dead slots) and
uses it both for the page-flush test and as the new `free_list_head`; this is
mirrored exactly.  The dead-slot arm appears twice because the source's
`value.filter(|_| i == idx)` merges the `None`-value and index-mismatch
cases into one `else`. -/
def PagedSlotMap.deserializeGo {α : Type} (N : Nat) :
    List IndexPair → List (Option α) → Nat → List IndexPair → List (Option α) →
    List (Option α) → Nat → Nat → Nat →
    List IndexPair × List (Option α) × List (Option α) × Nat × Nat × Nat
  | [], _, _, accIdx, values, page, fh, ft, fs => (accIdx.reverse, values, page, fh, ft, fs)
  | rest@(_ :: _), [], _, accIdx, values, page, fh, ft, fs =>
    (accIdx.reverse ++ rest, values, page, fh, ft, fs)
  | gen_index :: restI, value :: restV, i, accIdx, values, page, fh, ft, fs =>
    let idx := gen_index.index
    let offset := idx % N
    let values' := if 0 < idx ∧ offset = 0 then values ++ page else values
    let page' := if 0 < idx ∧ offset = 0 then List.replicate N none else page
    match value with
    | some v =>
      if i = idx then
        PagedSlotMap.deserializeGo N restI restV (i + 1) (gen_index :: accIdx) values'
          (page'.set offset (some v)) fh ft fs
      else
        PagedSlotMap.deserializeGo N restI restV (i + 1)
          (⟨if i = fh then 0 else fh, gen_index.generation⟩ :: accIdx) values' page'
          idx (if fs = 0 then idx else ft) (fs + 1)
    | none =>
      PagedSlotMap.deserializeGo N restI restV (i + 1)
        (⟨if i = fh then 0 else fh, gen_index.generation⟩ :: accIdx) values' page'
        idx (if fs = 0 then idx else ft) (fs + 1)

/-- `Deserialize for PagedSlotMap` (slotmap.rs lines 951-1010): run the loop
starting with `free_list_head = free_list_tail = indices.len()` and an empty
page buffer, then flush the last page when any entry exists. -/
def PagedSlotMap.deserialize {α : Type} (N : Nat) (indices : List IndexPair)
    (option_values : List (Option α)) : PagedSlotMap α :=
  match PagedSlotMap.deserializeGo N indices option_values 0 [] []
      (List.replicate N none) indices.length indices.length 0 with
  | (indices', values, page, fh, ft, fs) =>
    { indices := indices'
      values := if 0 < indices.length then values ++ page else values
      free_list_head := fh
      free_list_tail := ft
      free_list_size := fs }

/-- The free-slot chain: starting from `head`, follow the repurposed `index`
field of each entry for `size` steps.  This is exactly the traversal the
free-branch of `push` performs; `size` reaching zero terminates it. -/
def freeChain (indices : List IndexPair) : Nat → Nat → List Nat
  | _, 0 => []
  | head, size + 1 => head :: freeChain indices (indices.getD head default).index size

/-- The slot reached after following the free chain for `size` steps. -/
def followChain (indices : List IndexPair) : Nat → Nat → Nat
  | head, 0 => head
  | head, size + 1 => followChain indices (indices.getD head default).index size

/-- Well-formedness of a `PagedSlotMap` with page size `N`: the storage
bounds the unchecked reads rely on, the liveness criterion (slot `i` holds a
live value iff `indices[i].index() == i`), and the free-list shape: following
the repurposed `index` fields from `free_list_head` for `free_list_size`
steps visits, without repetition and in range, exactly the dead slots, and
ends at `free_list_tail`. -/
def PagedSlotMap.Inv {α : Type} (N : Nat) (m : PagedSlotMap α) : Prop :=
  0 < N ∧
  m.indices.length ≤ m.values.length ∧
  (∀ i, i < m.indices.length →
    ((m.indices.getD i default).index = i ↔ (m.values.getD i none).isSome)) ∧
  (freeChain m.indices m.free_list_head m.free_list_size).Nodup ∧
  (∀ j ∈ freeChain m.indices m.free_list_head m.free_list_size, j < m.indices.length) ∧
  (∀ i, i < m.indices.length →
    ((m.indices.getD i default).index ≠ i ↔
      i ∈ freeChain m.indices m.free_list_head m.free_list_size)) ∧
  (0 < m.free_list_size →
    (freeChain m.indices m.free_list_head m.free_list_size).getLast? = some m.free_list_tail)

instance {α : Type} [DecidableEq α] (N : Nat) (m : PagedSlotMap α) :
    Decidable (PagedSlotMap.Inv N m) := by
  unfold PagedSlotMap.Inv
  infer_instance

/-- Removing a list of keys one after another with `PagedSlotMap::remove`,
collecting each returned value. -/
def PagedSlotMap.removeAll {α : Type} (m : PagedSlotMap α) :
    List IndexPair → PagedSlotMap α × List (Option α)
  | [] => (m, [])
  | k :: ks =>
    let r := PagedSlotMap.remove m k
    let rr := PagedSlotMap.removeAll r.1 ks
    (rr.1, r.2 :: rr.2)

/-- Pushing a list of values one after another with `PagedSlotMap::push`,
collecting each returned handle. -/
def PagedSlotMap.pushAll {α : Type} (N : Nat) (m : PagedSlotMap α) :
    List α → PagedSlotMap α × List IndexPair
  | [] => (m, [])
  | v :: vs =>
    let r := PagedSlotMap.push N m v
    let rr := PagedSlotMap.pushAll N r.1 vs
    (rr.1, r.2 :: rr.2)

/-- A page-size-2 map holding 10, 20, 30, 40, 50 at slots 0-4. -/
def mRetainBug0 : PagedSlotMap Nat :=
  (PagedSlotMap.pushAll 2 PagedSlotMap.new [10, 20, 30, 40, 50]).1

/-- `retain` keeping the values other than 30 and 40 (so slots 2 and 3 are
removed). -/
def mRetainBug1 : PagedSlotMap Nat :=
  mRetainBug0.retain fun _ v => (decide (v ≠ 30 ∧ v ≠ 40), v)

/-- Then a plain `remove` of the live slot 4... -/
def mRetainBug2 : PagedSlotMap Nat :=
  (mRetainBug1.remove ⟨4, 1⟩).1

/-- ...followed by three pushes, which should reuse the three free slots. -/
def mRetainBug3 : PagedSlotMap Nat :=
  (PagedSlotMap.pushAll 2 mRetainBug2 [60, 70, 80]).1

/-- C2: `push`, `remove` and `clear` preserve the free-list invariant (proved
below as `PagedSlotMap.Inv` preservation lemmas), but `retain` does not: when
it removes two or more slots it links the removed slots into the free list in
reverse removal order and then sets `free_list_tail` to the *first* entry of
the appended chain instead of its last.  Concretely, retaining away slots 2
and 3 of a five-slot map leaves the chain `[3, 2]` (tail entry 2) while
`free_list_tail = 3`; after one further `remove` and three pushes, the push
path walks through the corrupted chain into the still-live slot 0 and
overwrites it, so `get ⟨0,1⟩` silently becomes `none` although that handle
was never removed. -/
theorem paged_retain_breaks_free_list_inv :
    PagedSlotMap.Inv 2 mRetainBug0
    ∧ ¬ PagedSlotMap.Inv 2 mRetainBug1
    ∧ freeChain mRetainBug1.indices mRetainBug1.free_list_head mRetainBug1.free_list_size = [3, 2]
    ∧ mRetainBug1.free_list_tail = 3
    ∧ mRetainBug0.get ⟨0, 1⟩ = some 10
    ∧ mRetainBug3.get ⟨0, 1⟩ = none := by
  decide

/-- A page-size-64 (the default) map holding 10, 20, 30, with slot 1 removed:
slot 2 is live behind a dead slot. -/
def mIterHole : PagedSlotMap Nat :=
  ((PagedSlotMap.pushAll 64 PagedSlotMap.new [10, 20, 30]).1.remove ⟨1, 1⟩).1

/-- C4: `Iter::next` does not skip dead slots — it returns `None` for them,
which terminates a `for` loop (or any `collect`).  On a map whose slot 1 is
dead, iteration observes only the entry of slot 0 even though slot 2 is live
and initialised, contradicting the claim that live entries positioned after a
dead slot are still produced. -/
theorem paged_iter_stops_at_dead_slot :
    mIterHole.iter.collect = [(⟨0, 1⟩, some 10)]
    ∧ (⟨2, 1⟩, some 30) ∉ mIterHole.iter.collect
    ∧ (mIterHole.indices.getD 2 default).index = 2
    ∧ mIterHole.values.getD 2 none = some 30 := by
  decide

/-- The serialized form of `mIterHole`: handles with `null` at the dead
slot 1. -/
def mSerde : List IndexPair × List (Option Nat) := mIterHole.serialize

/-- The map deserialize rebuilds from that output (page size 64). -/
def mSerdeBack : PagedSlotMap Nat := PagedSlotMap.deserialize 64 mSerde.1 mSerde.2

/-- C5: serialization does put `null` exactly at dead slots, but the
deserializer assigns `free_list_head`/`free_list_tail` from the dead slot's
*stored* index field (the old free-list pointer) instead of its position:
round-tripping a map whose only dead slot is 1 (stored pointer 0) yields
`free_list_head = 0` — a live slot — so the reconstructed free list violates
the free-list invariant and the map differs from the original. -/
theorem paged_deserialize_free_list_bug :
    mSerde.2 = [some 10, none, some 30]
    ∧ mSerdeBack.free_list_head = 0
    ∧ mSerdeBack.free_list_size = 1
    ∧ (mSerdeBack.indices.getD 0 default).index = 0
    ∧ ¬ PagedSlotMap.Inv 64 mSerdeBack
    ∧ mSerdeBack ≠ mIterHole := by
  decide

/-- The C6 scenario, page size 2: five pushes... -/
def mScenarioA : PagedSlotMap Nat × List IndexPair :=
  PagedSlotMap.pushAll 2 PagedSlotMap.new [10, 20, 30, 40, 50]

/-- ...remove the handle with index 1... -/
def mScenarioB : PagedSlotMap Nat × Option Nat := mScenarioA.1.remove ⟨1, 1⟩

/-- ...and push one more value. -/
def mScenarioC : PagedSlotMap Nat × IndexPair := PagedSlotMap.push 2 mScenarioB.1 60

/-- C6: on a page-size-2 map, five pushes return handles with indices 0-4 and
the from-index default generation 1; removing the index-1 handle makes `get`
on it `none` with `len() = 4`; the next push returns index 1 at generation 2;
and `iter` then yields the four survivors plus the new value in ascending
index order (every slot is live again, so the iterator's early-`None`
behaviour on dead slots is not triggered). -/
theorem paged_slotmap_scenario :
    mScenarioA.2 = [⟨0, 1⟩, ⟨1, 1⟩, ⟨2, 1⟩, ⟨3, 1⟩, ⟨4, 1⟩]
    ∧ mScenarioB.1.get ⟨1, 1⟩ = none
    ∧ mScenarioB.1.len = 4
    ∧ mScenarioC.2 = ⟨1, 2⟩
    ∧ mScenarioC.1.iter.collect =
        [(⟨0, 1⟩, some 10), (⟨1, 2⟩, some 60), (⟨2, 1⟩, some 30),
         (⟨3, 1⟩, some 40), (⟨4, 1⟩, some 50)] := by
  decide

/-- A map with a pre-existing free slot: 10 and 20 pushed, slot 0 removed. -/
def mPreFree : PagedSlotMap Nat :=
  ((PagedSlotMap.pushAll 64 PagedSlotMap.new [10, 20]).1.remove ⟨0, 1⟩).1

/-- C3 counterexample: on a map that already has a free slot (slot 0),
removing k = 1 live slot (slot 1, which succeeds and frees position 1) and
then pushing one value does *not* reuse the freed position: the push pops the
older head of the free list and returns a handle with index 0, not 1. -/
theorem paged_fifo_reuse_counterexample :
    (mPreFree.remove ⟨1, 1⟩).2 = some 20
    ∧ 1 ≤ mPreFree.len
    ∧ (PagedSlotMap.push 64 (mPreFree.remove ⟨1, 1⟩).1 99).2.index = 0 := by
  decide

/-- `IndexU64` (`genindex/src/indexu64.rs`) stores index and generation in
one `u64`: `from_raw_parts` is `index as u64 + ((generation as u64) << 32)`,
modelled on the payload as a `Nat` reduced mod `2 ^ 64`. -/
def IndexU64.from_raw_parts (index generation : Nat) : Nat :=
  (index + generation * 2 ^ 32) % 2 ^ 64

/-- `IndexU64::index`: `(self.0 & (u32::MAX as u64)) as u32`. -/
def IndexU64.index (v : Nat) : Nat :=
  v % 2 ^ 32

/-- `IndexU64::generation`: `(self.0 >> 32) as u32`. -/
def IndexU64.generation (v : Nat) : Nat :=
  v / 2 ^ 32 % 2 ^ 32

/-- `IndexF64::MAX_SAFE_GENERATION = (1 << 21) - 1` (`genindex/src/indexf64.rs`). -/
def IndexF64.MAX_SAFE_GENERATION : Nat := 2 ^ 21 - 1

/-- `IndexF64::from_raw_parts`:
`index as f64 + (((generation & MAX_SAFE_GENERATION) as u64) << 32) as f64`.
The `f64` payload built here is a nonnegative integer below `2 ^ 53`, which
`f64` represents exactly and whose addition is exact, so the payload is
modelled as that natural number; the all-ones mask `& MAX_SAFE_GENERATION`
is `% 2 ^ 21`. -/
def IndexF64.from_raw_parts (index generation : Nat) : Nat :=
  index + generation % 2 ^ 21 * 2 ^ 32

/-- `IndexF64::index`: `(self.0 as u64 & (u32::MAX as u64)) as u32` — the
`f64`-to-`u64` cast is exact on the integral payload. -/
def IndexF64.index (v : Nat) : Nat :=
  v % 2 ^ 32

/-- `IndexF64::generation`: `((self.0 as u64) >> 32) as u32`. -/
def IndexF64.generation (v : Nat) : Nat :=
  v / 2 ^ 32 % 2 ^ 32

/-- C9: each of the three `GenIndex` encodings recovers index and generation
exactly from `from_raw_parts`, for every representable pair: the two-field
`IndexPair` unconditionally; the packed `IndexU64` for 32-bit index and
generation; the packed-float `IndexF64` for 32-bit index and generation at
most `2 ^ 21 - 1`. -/
theorem genindex_from_raw_parts_roundtrip :
    (∀ i g : Nat, (IndexPair.from_raw_parts i g).index = i ∧
      (IndexPair.from_raw_parts i g).generation = g)
    ∧ (∀ i g : Nat, i < 2 ^ 32 → g < 2 ^ 32 →
        IndexU64.index (IndexU64.from_raw_parts i g) = i ∧
        IndexU64.generation (IndexU64.from_raw_parts i g) = g)
    ∧ (∀ i g : Nat, i < 2 ^ 32 → g ≤ 2 ^ 21 - 1 →
        IndexF64.index (IndexF64.from_raw_parts i g) = i ∧
        IndexF64.generation (IndexF64.from_raw_parts i g) = g) := by
  refine ⟨fun i g => ⟨rfl, rfl⟩, fun i g hi hg => ?_, fun i g hi hg => ?_⟩
  · unfold IndexU64.index IndexU64.generation IndexU64.from_raw_parts
    constructor <;> omega
  · unfold IndexF64.index IndexF64.generation IndexF64.from_raw_parts
    constructor <;> omega

/-- Witness for C9 at index 3, generation 5. -/
theorem genindex_from_raw_parts_roundtrip_witness :
    ((IndexPair.from_raw_parts 3 5).index = 3 ∧ (IndexPair.from_raw_parts 3 5).generation = 5)
    ∧ (IndexU64.index (IndexU64.from_raw_parts 3 5) = 3 ∧
        IndexU64.generation (IndexU64.from_raw_parts 3 5) = 5)
    ∧ (IndexF64.index (IndexF64.from_raw_parts 3 5) = 3 ∧
        IndexF64.generation (IndexF64.from_raw_parts 3 5) = 5) :=
  ⟨genindex_from_raw_parts_roundtrip.1 3 5,
   genindex_from_raw_parts_roundtrip.2.1 3 5 (by norm_num) (by norm_num),
   genindex_from_raw_parts_roundtrip.2.2 3 5 (by norm_num) (by norm_num)⟩

/-- `SparseSet<T, IndexPair>` from `collections/src/maps/sparseset.rs`: a
sparse array of dense positions and the dense entry array. -/
structure SparseSet (α : Type) where
  sparse : List Nat
  entries : List (IndexPair × α)
deriving DecidableEq

/-- `SparseSet::new`. -/
def SparseSet.new {α : Type} : SparseSet α :=
  ⟨[], []⟩

/-- `SparseSet::get_sparse_dense_indices`: the `try_into` of a `usize` index
always succeeds, so this returns the sparse position and the (optional)
stored dense position. -/
def SparseSet.get_sparse_dense_indices {α : Type} (s : SparseSet α) (i : IndexPair) :
    Nat × Option Nat :=
  (i.index, s.sparse[i.index]?)

/-- `SparseSet::get` (sparseset.rs lines 169-177). -/
def SparseSet.get {α : Type} (s : SparseSet α) (i : IndexPair) : Option α :=
  match (s.get_sparse_dense_indices i).2 with
  | none => none
  | some dense_index =>
    match s.entries[dense_index]? with
    | none => none
    | some (index, value) => if i = index then some value else none

/-- `SparseSet::reserve_sparse_index` (sparseset.rs lines 345-351).  The
source grows `sparse` to its capacity with `set_len`, leaving the fresh cells
uninitialised; this is modelled as growth to exactly `index + 1` cells (the
minimum the capacity guarantees) filled with `usizeMax` junk.  Every claim
proved in this file reads only cells the source initialises, so the junk
value never reaches a conclusion. -/
def SparseSet.reserve_sparse_index {α : Type} (s : SparseSet α) (index : Nat) : SparseSet α :=
  if s.sparse.length ≤ index then
    { s with sparse := s.sparse ++ List.replicate (index + 1 - s.sparse.length) usizeMax }
  else s

/-- `SparseSet::insert` (sparseset.rs lines 218-233): if the stored dense
position holds an entry whose key has the same `index()`, only the value is
replaced (the stored key is kept) and the old value returned; otherwise the
sparse array is grown, pointed at the end of the dense array, and the entry
appended.  The fall-through arm is duplicated because the source reaches the
same code from both a failed dense lookup and a key-index mismatch. -/
def SparseSet.insert {α : Type} (s : SparseSet α) (i : IndexPair) (v : α) :
    SparseSet α × Option α :=
  let sparse_index := i.index
  match (s.sparse[sparse_index]?).bind fun d => (s.entries[d]?).map fun e => (d, e) with
  | some (d, (index, value)) =>
    if i.index = index.index then
      ({ s with entries := s.entries.set d (index, v) }, some value)
    else
      let s1 := s.reserve_sparse_index sparse_index
      ({ s1 with
          sparse := s1.sparse.set sparse_index s1.entries.length
          entries := s1.entries ++ [(i, v)] }, none)
  | none =>
    let s1 := s.reserve_sparse_index sparse_index
    ({ s1 with
        sparse := s1.sparse.set sparse_index s1.entries.length
        entries := s1.entries ++ [(i, v)] }, none)

/-- `Vec::swap_remove`: overwrite position `d` with the last element and pop
the last (the two coincide when `d` is the last position). -/
def listSwapRemove {β : Type} (l : List β) (d : Nat) : List β :=
  match l.getLast? with
  | none => l
  | some last => (l.set d last).dropLast

/-- `SparseSet::remove` (sparseset.rs lines 249-263): validate the handle at
the stored dense position; when removing a non-last entry, repoint the
formerly-last entry's sparse cell at the vacated dense position (the
`get_mut(swapped_index)?` early-returns `None` when that cell is out of
range); mark the removed handle's sparse cell with `usize::MAX`; swap-remove
the dense entry. -/
def SparseSet.remove {α : Type} (s : SparseSet α) (i : IndexPair) :
    Option (SparseSet α × α) :=
  let sparse_index := i.index
  match s.sparse[sparse_index]? with
  | none => none
  | some dense_index =>
    match s.entries[dense_index]? with
    | none => none
    | some (index, value) =>
      if index = i then
        if dense_index < s.entries.length - 1 then
          match s.entries.getLast? with
          | none => none
          | some (lastIndex, _) =>
            if lastIndex.index < s.sparse.length then
              let s1 := { s with sparse := s.sparse.set lastIndex.index dense_index }
              let s2 := { s1 with sparse := s1.sparse.set sparse_index usizeMax }
              some ({ s2 with entries := listSwapRemove s2.entries dense_index }, value)
            else none
        else
          let s2 := { s with sparse := s.sparse.set sparse_index usizeMax }
          some ({ s2 with entries := listSwapRemove s2.entries dense_index }, value)
      else none

/-- C7: removing a live non-last entry from a sparse set: the dense array
shrinks by exactly one, the formerly-last entry is moved into the removed
entry's old dense position `d`, its sparse cell is rewritten to `d`, and the
removed handle's sparse cell is set to the `usize::MAX` sentinel.  Stated for
any state on which the removal succeeds with a non-last dense position and a
last entry whose key index differs from the removed one (as in any sparse
set, where live keys have distinct indices). -/
theorem sparse_swap_remove_last_moved {α : Type} (s : SparseSet α) (i : IndexPair) (d : Nat)
    (lastE : IndexPair × α) (s' : SparseSet α) (v : α)
    (hs : s.sparse[i.index]? = some d)
    (hlast : s.entries.getLast? = some lastE)
    (hne : lastE.1.index ≠ i.index)
    (hd : d < s.entries.length - 1)
    (hrem : s.remove i = some (s', v)) :
    s'.entries.length = s.entries.length - 1
    ∧ s'.entries[d]? = some lastE
    ∧ s'.sparse.getD lastE.1.index 0 = d
    ∧ s'.sparse.getD i.index 0 = usizeMax := by
  have hilen : i.index < s.sparse.length := by
    rcases List.getElem?_eq_some_iff.mp hs with ⟨h1, _⟩
    exact h1
  simp only [SparseSet.remove, hs] at hrem
  cases he : s.entries[d]? with
  | none => rw [he] at hrem; simp at hrem
  | some e =>
    obtain ⟨index, value⟩ := e
    rw [he] at hrem
    simp only at hrem
    by_cases hie : index = i
    · rw [if_pos hie, if_pos hd, hlast] at hrem
      simp only at hrem
      by_cases hb : lastE.1.index < s.sparse.length
      · rw [if_pos hb] at hrem
        simp only [Option.some.injEq, Prod.mk.injEq] at hrem
        obtain ⟨hseq, hveq⟩ := hrem
        subst hseq
        refine ⟨?_, ?_, ?_, ?_⟩
        · simp [listSwapRemove, hlast, List.length_dropLast, List.length_set]
        · simp only [listSwapRemove, hlast]
          rw [List.getElem?_dropLast, List.length_set, if_pos hd, List.getElem?_set_self]
          omega
        · rw [List.getD_eq_getElem?_getD,
            List.getElem?_set_ne (by exact fun hX => hne hX.symm),
            List.getElem?_set_self hb]
          rfl
        · rw [List.getD_eq_getElem?_getD,
            List.getElem?_set_self (by rw [List.length_set]; exact hilen)]
          rfl
      · rw [if_neg hb] at hrem; simp at hrem
    · rw [if_neg hie] at hrem; simp at hrem

/-- The spec's C7 example state: handles with raw indices 5, 0, 4 inserted in
that order. -/
def sparseRemExInput : SparseSet Nat :=
  (((SparseSet.new.insert (IndexPair.from_index 5) 50).1.insert
      (IndexPair.from_index 0) 60).1.insert (IndexPair.from_index 4) 70).1

/-- The state after removing raw index 0 from `sparseRemExInput` (the four
leading `usizeMax` cells are the modelled uninitialised `set_len` junk plus
the sentinel written at cell 0). -/
def sparseRemExOutput : SparseSet Nat :=
  ⟨[usizeMax, usizeMax, usizeMax, usizeMax, 1, 0],
   [(⟨5, 1⟩, 50), (⟨4, 1⟩, 70)]⟩

/-- Witness for C7, on the spec's own example: dense order [5,0,4] with
sparse cells 0↦1, 4↦2, 5↦0; removing raw index 0 leaves dense [5,4] with
sparse 4↦1 and cell 0 at the sentinel. -/
theorem sparse_swap_remove_last_moved_witness :
    (sparseRemExInput.entries.map fun e => e.1.index) = [5, 0, 4]
    ∧ sparseRemExInput.sparse.getD 0 0 = 1
    ∧ sparseRemExInput.sparse.getD 4 0 = 2
    ∧ sparseRemExInput.sparse.getD 5 0 = 0
    ∧ (sparseRemExOutput.entries.map fun e => e.1.index) = [5, 4]
    ∧ (sparseRemExOutput.entries.length = sparseRemExInput.entries.length - 1
        ∧ sparseRemExOutput.entries[1]? = some (⟨4, 1⟩, 70)
        ∧ sparseRemExOutput.sparse.getD 4 0 = 1
        ∧ sparseRemExOutput.sparse.getD 0 0 = usizeMax) :=
  ⟨by decide, by decide, by decide, by decide, by decide,
   sparse_swap_remove_last_moved sparseRemExInput ⟨0, 1⟩ 1 (⟨4, 1⟩, 70) sparseRemExOutput 60
     (by decide) (by decide) (by decide) (by decide) (by decide)⟩

/-- C10: inserting with a handle `h2` that has the same index but a different
generation than the live entry's key `h` replaces only the stored value
(returning the old one) and keeps `h` as the entry's key: afterwards
`get(&h)` is `Some` of the new value while `get(&h2)` is `None`. -/
theorem sparse_insert_stale_generation {α : Type} (s : SparseSet α) (h h2 : IndexPair)
    (d : Nat) (w v : α)
    (hs : s.sparse[h.index]? = some d)
    (he : s.entries[d]? = some (h, w))
    (hidx : h2.index = h.index)
    (hgen : h2.generation ≠ h.generation) :
    (s.insert h2 v).2 = some w
    ∧ (s.insert h2 v).1.get h = some v
    ∧ (s.insert h2 v).1.get h2 = none := by
  have hdlen : d < s.entries.length := by
    rcases List.getElem?_eq_some_iff.mp he with ⟨h1, _⟩
    exact h1
  have hins : s.insert h2 v = ({ s with entries := s.entries.set d (h, v) }, some w) := by
    simp only [SparseSet.insert, hidx, hs, Option.some_bind]
    rw [he]
    simp
  rw [hins]
  refine ⟨rfl, ?_, ?_⟩
  · simp only [SparseSet.get, SparseSet.get_sparse_dense_indices, hs,
      List.getElem?_set_self hdlen]
    simp
  · simp only [SparseSet.get, SparseSet.get_sparse_dense_indices, hidx, hs,
      List.getElem?_set_self hdlen]
    have : h2 ≠ h := fun hX => hgen (by rw [hX])
    simp [this]

/-- A sparse set holding one entry keyed by handle (1,1). -/
def sparseStale : SparseSet Nat := (SparseSet.new.insert ⟨1, 1⟩ 5).1

/-- Witness for C10: inserting 9 under the stale handle (1,2) returns the old
value 5, `get (1,1)` sees 9, `get (1,2)` sees nothing. -/
theorem sparse_insert_stale_generation_witness :
    (sparseStale.insert ⟨1, 2⟩ 9).2 = some 5
    ∧ (sparseStale.insert ⟨1, 2⟩ 9).1.get ⟨1, 1⟩ = some 9
    ∧ (sparseStale.insert ⟨1, 2⟩ 9).1.get ⟨1, 2⟩ = none :=
  sparse_insert_stale_generation sparseStale ⟨1, 1⟩ ⟨1, 2⟩ 0 5 9
    (by decide) (by decide) (by decide) (by decide)

/-- The sparse-rebuild loop of `SparseSet::sort_by` (sparseset.rs lines
322-332): point each dense entry's sparse cell (when its key index is in
range; `List.set` is likewise a no-op out of range) at the entry's position. -/
def fixSparse {α : Type} (sparse : List Nat) (item_index : Nat) :
    List (IndexPair × α) → List Nat
  | [] => sparse
  | (i, _) :: rest => fixSparse (sparse.set i.index item_index) (item_index + 1) rest

/-- `SparseSet::sort_by` (sparseset.rs lines 318-333): stably sort the dense
entries by the comparator (`slice::sort_by` is a stable comparator sort, kept
when the comparator does not answer `Greater`; modelled with the stable
`List.mergeSort`), then rebuild the sparse cells. -/
def SparseSet.sort_by {α : Type} (s : SparseSet α)
    (cmp : IndexPair × α → IndexPair × α → Ordering) : SparseSet α :=
  let entries := s.entries.mergeSort fun lhs rhs => decide (cmp lhs rhs ≠ Ordering.gt)
  { sparse := fixSparse s.sparse 0 entries, entries := entries }

/-- Cells whose index no entry carries are untouched by the sparse rebuild. -/
theorem fixSparse_getD_not_mem {α : Type} (entries : List (IndexPair × α)) :
    ∀ (sparse : List Nat) (q x d : Nat), (∀ e ∈ entries, e.1.index ≠ x) →
      (fixSparse sparse q entries).getD x d = sparse.getD x d := by
  induction entries with
  | nil => intro sparse q x d _; rfl
  | cons e rest ih =>
    intro sparse q x d hx
    obtain ⟨i, a⟩ := e
    simp only [fixSparse]
    rw [ih _ _ _ _ fun f hf => hx f (List.mem_cons_of_mem _ hf)]
    rw [List.getD_eq_getElem?_getD, List.getD_eq_getElem?_getD,
      List.getElem?_set_ne (hx (i, a) (List.mem_cons_self _ _))]

/-- After the sparse rebuild over entries with pairwise distinct, in-range
key indices, the cell of the entry at position `p` holds `q + p` (where `q`
is the starting position counter). -/
theorem fixSparse_getD {α : Type} (entries : List (IndexPair × α)) :
    ∀ (sparse : List Nat) (q : Nat),
      entries.Pairwise (fun e f => e.1.index ≠ f.1.index) →
      (∀ e ∈ entries, e.1.index < sparse.length) →
      ∀ p, (hp : p < entries.length) →
        (fixSparse sparse q entries).getD (entries.get ⟨p, hp⟩).1.index 0 = q + p := by
  induction entries with
  | nil => intro _ _ _ _ p hp; exact absurd hp (by simp)
  | cons e rest ih =>
    intro sparse q hpw hb p hp
    obtain ⟨i, a⟩ := e
    match p with
    | 0 =>
      simp only [fixSparse, List.get]
      rw [fixSparse_getD_not_mem rest _ _ _ _
        fun f hf => ((List.pairwise_cons.mp hpw).1 f hf).symm]
      rw [List.getD_eq_getElem?_getD,
        List.getElem?_set_self (hb (i, a) (List.mem_cons_self _ _))]
      rfl
    | p' + 1 =>
      simp only [fixSparse]
      have hres := ih (sparse.set i.index q) (q + 1) (List.pairwise_cons.mp hpw).2
        (fun f hf => by rw [List.length_set]; exact hb f (List.mem_cons_of_mem _ hf))
        p' (by simpa using Nat.lt_of_succ_lt_succ hp)
      simpa [Nat.add_assoc, Nat.add_comm 1 p'] using hres

/-- Stability of the modelled `slice::sort_by` for a key-based comparator:
the elements with any fixed key appear in the sorted output exactly as they
appeared in the input. -/
theorem mergeSort_key_stable {β : Type} (l : List β) (k : β → Nat) (κ : Nat) :
    (l.mergeSort fun a b => decide (compare (k a) (k b) ≠ Ordering.gt)).filter
        (fun e => k e == κ)
      = l.filter fun e => k e == κ := by
  have hleiff : ∀ a b : β,
      (decide (compare (k a) (k b) ≠ Ordering.gt)) = true ↔ k a ≤ k b := by
    intro a b
    simp [Nat.compare_eq_gt, Nat.not_lt]
  have htrans : ∀ a b c : β, decide (compare (k a) (k b) ≠ Ordering.gt) = true →
      decide (compare (k b) (k c) ≠ Ordering.gt) = true →
      decide (compare (k a) (k c) ≠ Ordering.gt) = true := by
    intro a b c h1 h2
    rw [hleiff] at h1 h2 ⊢
    omega
  have htotal : ∀ a b : β, (decide (compare (k a) (k b) ≠ Ordering.gt)
      || decide (compare (k b) (k a) ≠ Ordering.gt)) = true := by
    intro a b
    rcases Nat.le_total (k a) (k b) with h | h
    · rw [Bool.or_eq_true]; exact Or.inl ((hleiff _ _).mpr h)
    · rw [Bool.or_eq_true]; exact Or.inr ((hleiff _ _).mpr h)
  have hperm := List.mergeSort_perm l fun a b => decide (compare (k a) (k b) ≠ Ordering.gt)
  have hmemF : ∀ e ∈ l.filter (fun e => k e == κ), k e = κ := by
    intro e he
    simpa using (List.mem_filter.mp he).2
  have hpairF : (l.filter fun e => k e == κ).Pairwise
      (fun a b => decide (compare (k a) (k b) ≠ Ordering.gt) = true) := by
    rw [List.pairwise_iff_forall_sublist]
    intro a b hab
    have ha := hmemF a (hab.subset (by simp))
    have hb := hmemF b (hab.subset (by simp))
    exact (hleiff _ _).mpr (by omega)
  have hsub : (l.filter fun e => k e == κ).Sublist
      (l.mergeSort fun a b => decide (compare (k a) (k b) ≠ Ordering.gt)) :=
    List.sublist_mergeSort htrans htotal hpairF (List.filter_sublist _)
  have hsub2 : (l.filter fun e => k e == κ).Sublist
      ((l.mergeSort fun a b => decide (compare (k a) (k b) ≠ Ordering.gt)).filter
        fun e => k e == κ) := by
    have h1 := hsub.filter fun e => k e == κ
    rwa [List.filter_eq_self.mpr fun e he => (List.mem_filter.mp he).2] at h1
  have hlen : ((l.mergeSort fun a b => decide (compare (k a) (k b) ≠ Ordering.gt)).filter
      fun e => k e == κ).length = (l.filter fun e => k e == κ).length := by
    rw [← List.countP_eq_length_filter, ← List.countP_eq_length_filter]
    exact hperm.countP_eq _
  exact (hsub2.eq_of_length hlen.symm).symm

/-- C8: `SparseSet::sort_by` with a key-based comparator is stable — for
every key value, the entries carrying it keep their relative dense order —
and afterwards every entry's sparse cell holds its new dense position,
provided the entries' key indices are pairwise distinct and within the sparse
array (as in any sparse set built through `insert`). -/
theorem sparse_sort_by_stable_fixup {α : Type} (s : SparseSet α) (k : IndexPair × α → Nat)
    (hNodup : (s.entries.map fun e => e.1.index).Nodup)
    (hBound : ∀ e ∈ s.entries, e.1.index < s.sparse.length) :
    (∀ κ : Nat,
      (s.sort_by fun a b => compare (k a) (k b)).entries.filter (fun e => k e == κ)
        = s.entries.filter fun e => k e == κ)
    ∧ ∀ p, (hp : p < (s.sort_by fun a b => compare (k a) (k b)).entries.length) →
      (s.sort_by fun a b => compare (k a) (k b)).sparse.getD
        (((s.sort_by fun a b => compare (k a) (k b)).entries.get ⟨p, hp⟩).1.index) 0 = p := by
  have hperm := List.mergeSort_perm s.entries
    fun a b => decide (compare (k a) (k b) ≠ Ordering.gt)
  constructor
  · intro κ
    simp only [SparseSet.sort_by]
    exact mergeSort_key_stable s.entries k κ
  · intro p hp
    simp only [SparseSet.sort_by] at hp ⊢
    have hpw : (s.entries.mergeSort fun a b =>
        decide (compare (k a) (k b) ≠ Ordering.gt)).Pairwise
        (fun e f => e.1.index ≠ f.1.index) := by
      have h1 : ((s.entries.mergeSort fun a b =>
          decide (compare (k a) (k b) ≠ Ordering.gt)).map
          fun e => e.1.index).Nodup := (hperm.map _).nodup_iff.mpr hNodup
      exact List.pairwise_map.mp h1
    have hb : ∀ e ∈ s.entries.mergeSort fun a b =>
        decide (compare (k a) (k b) ≠ Ordering.gt),
        e.1.index < s.sparse.length := fun e he => hBound e (hperm.mem_iff.mp he)
    simpa using fixSparse_getD _ s.sparse 0 hpw hb p (by simpa using hp)

/-- A sparse set with duplicate key values 1 at dense positions 1 and 2 (raw
indices 5 and 1), and 2 at position 0 (raw index 0); unused sparse cells hold
junk. -/
def sortWitnessSet : SparseSet Nat :=
  ⟨[0, 2, 0, 0, 0, 1], [(⟨0, 1⟩, 2), (⟨5, 1⟩, 1), (⟨1, 1⟩, 1)]⟩

/-- Witness for C8: sorting by value keeps the two value-1 entries in their
original relative order (raw index 5 before raw index 1) and rebuilds every
sparse cell to the new dense position. -/
theorem sparse_sort_by_stable_fixup_witness :
    ((sortWitnessSet.entries.map fun e => e.1.index).Nodup
      ∧ ∀ e ∈ sortWitnessSet.entries, e.1.index < sortWitnessSet.sparse.length)
    ∧ ((sortWitnessSet.sort_by fun a b => compare a.2 b.2).entries.filter
        (fun e => e.2 == 1) = sortWitnessSet.entries.filter fun e => e.2 == 1)
    ∧ (sortWitnessSet.sort_by fun a b => compare a.2 b.2).entries
        = [(⟨5, 1⟩, 1), (⟨1, 1⟩, 1), (⟨0, 1⟩, 2)]
    ∧ (sortWitnessSet.sort_by fun a b => compare a.2 b.2).sparse = [2, 1, 0, 0, 0, 0] :=
  ⟨⟨by decide, by decide⟩,
   (sparse_sort_by_stable_fixup sortWitnessSet (fun e => e.2) (by decide) (by decide)).1 1,
   by simp +decide [sortWitnessSet, SparseSet.sort_by, List.mergeSort, fixSparse],
   by simp +decide [sortWitnessSet, SparseSet.sort_by, List.mergeSort, fixSparse]⟩

/-- C1: on a well-formed map, `get`, `get_mut` and `remove` succeed (return
`Some`) exactly when the key's index is in range and the stored handle at
that position equals the key in both index and generation — equivalently,
`indices[key.index()]? = some key`.  A stale generation, an out-of-range
index, or a free-listed slot makes all three return `None`; the model (like
the source, whose only unchecked reads are guarded by this validation) has no
panicking path here. -/
theorem paged_accessor_valid_iff {α : Type} (N : Nat) (m : PagedSlotMap α)
    (hInv : PagedSlotMap.Inv N m) (k : IndexPair) :
    ((m.get k).isSome ↔ m.indices[k.index]? = some k)
    ∧ ((m.get_mut k).isSome ↔ m.indices[k.index]? = some k)
    ∧ ((m.remove k).2.isSome ↔ m.indices[k.index]? = some k) := by
  obtain ⟨hN, hLen, hLive, hND, hRange, hMem, hTail⟩ := hInv
  have hlive : m.indices[k.index]? = some k → (m.values.getD k.index none).isSome := by
    intro hk
    have hkl : k.index < m.indices.length := (List.getElem?_eq_some_iff.mp hk).1
    have hk' : m.indices.getD k.index default = k := by
      rw [List.getD_eq_getElem?_getD, hk]
      rfl
    exact (hLive k.index hkl).mp (by rw [hk'])
  cases h : m.indices[k.index]? with
  | none =>
    refine ⟨?_, ?_, ?_⟩ <;>
      simp [PagedSlotMap.get, PagedSlotMap.get_mut, PagedSlotMap.remove, h]
  | some index =>
    by_cases hik : index = k
    · subst hik
      have hv := hlive h
      rw [List.getD_eq_getElem?_getD] at hv
      refine ⟨?_, ?_, ?_⟩ <;>
        simp [PagedSlotMap.get, PagedSlotMap.get_mut, PagedSlotMap.remove, h, hv]
    · refine ⟨?_, ?_, ?_⟩ <;>
        simp [PagedSlotMap.get, PagedSlotMap.get_mut, PagedSlotMap.remove, h, hik]

/-- A well-formed two-entry map for the C1 witness. -/
def mAccessor : PagedSlotMap Nat := (PagedSlotMap.pushAll 64 PagedSlotMap.new [10, 20]).1

/-- Witness for C1: a valid handle, a stale-generation handle, and an
out-of-range handle. -/
theorem paged_accessor_valid_iff_witness :
    PagedSlotMap.Inv 64 mAccessor
    ∧ ((mAccessor.get ⟨0, 1⟩).isSome ↔ mAccessor.indices[0]? = some ⟨0, 1⟩)
    ∧ ((mAccessor.get ⟨0, 2⟩).isSome ↔ mAccessor.indices[0]? = some ⟨0, 2⟩)
    ∧ ((mAccessor.remove ⟨5, 1⟩).2.isSome ↔ mAccessor.indices[5]? = some ⟨5, 1⟩) :=
  ⟨by decide,
   (paged_accessor_valid_iff 64 mAccessor (by decide) ⟨0, 1⟩).1,
   (paged_accessor_valid_iff 64 mAccessor (by decide) ⟨0, 2⟩).1,
   (paged_accessor_valid_iff 64 mAccessor (by decide) ⟨5, 1⟩).2.2⟩

/-- The free chain always has exactly `size` entries. -/
theorem freeChain_length (ind : List IndexPair) :
    ∀ (n h : Nat), (freeChain ind h n).length = n := by
  intro n
  induction n with
  | zero => intro h; rfl
  | succ m ih => intro h; simp [freeChain, ih]

/-- Following one more step reads the pointer of the slot reached so far. -/
theorem followChain_succ (ind : List IndexPair) :
    ∀ (n h : Nat), followChain ind h (n + 1) = (ind.getD (followChain ind h n) default).index := by
  intro n
  induction n with
  | zero => intro h; rfl
  | succ m ih =>
    intro h
    show followChain ind (ind.getD h default).index (m + 1)
      = (ind.getD (followChain ind (ind.getD h default).index m) default).index
    exact ih _

/-- Extending the traversal by a step appends the slot it reaches. -/
theorem freeChain_succ (ind : List IndexPair) :
    ∀ (n h : Nat), freeChain ind h (n + 1) = freeChain ind h n ++ [followChain ind h n] := by
  intro n
  induction n with
  | zero => intro h; rfl
  | succ m ih =>
    intro h
    show h :: freeChain ind (ind.getD h default).index (m + 1)
      = (h :: freeChain ind (ind.getD h default).index m) ++ _
    rw [ih]
    rfl

/-- The chain only reads the pointers of its entries except the last, so two
index arrays agreeing there produce the same chain. -/
theorem freeChain_congr (ind ind' : List IndexPair) :
    ∀ (n h : Nat),
      (∀ j ∈ (freeChain ind h n).dropLast,
        (ind'.getD j default).index = (ind.getD j default).index) →
      freeChain ind' h n = freeChain ind h n := by
  intro n
  induction n with
  | zero => intro h _; rfl
  | succ m ih =>
    intro h hagree
    cases m with
    | zero => rfl
    | succ m' =>
      have hne : freeChain ind (ind.getD h default).index (m' + 1) ≠ [] := by
        intro hX
        have hL := freeChain_length ind (m' + 1) (ind.getD h default).index
        rw [hX] at hL
        simp at hL
      have hdl : (freeChain ind h (m' + 1 + 1)).dropLast
          = h :: (freeChain ind (ind.getD h default).index (m' + 1)).dropLast := by
        show (h :: freeChain ind (ind.getD h default).index (m' + 1)).dropLast = _
        exact List.dropLast_cons_of_ne_nil hne
      have hh : (ind'.getD h default).index = (ind.getD h default).index :=
        hagree h (by rw [hdl]; exact List.mem_cons_self _ _)
      show h :: freeChain ind' (ind'.getD h default).index (m' + 1)
        = h :: freeChain ind (ind.getD h default).index (m' + 1)
      rw [hh]
      congr 1
      apply ih
      intro j hj
      exact hagree j (by rw [hdl]; exact List.mem_cons_of_mem _ hj)

/-- `getD` after `set` at the same (in-range) position. -/
theorem list_getD_set_self {β : Type} (l : List β) (i : Nat) (x d : β) (hi : i < l.length) :
    (l.set i x).getD i d = x := by
  rw [List.getD_eq_getElem?_getD, List.getElem?_set_self hi]
  rfl

/-- `getD` after `set` at a different position. -/
theorem list_getD_set_ne {β : Type} (l : List β) (i j : Nat) (x d : β) (hij : i ≠ j) :
    (l.set i x).getD j d = l.getD j d := by
  rw [List.getD_eq_getElem?_getD, List.getElem?_set_ne hij, ← List.getD_eq_getElem?_getD]

/-- A nonempty chain starts at the head. -/
theorem freeChain_cons (ind : List IndexPair) (h n : Nat) (hn : 0 < n) :
    freeChain ind h n = h :: (freeChain ind h n).tail := by
  cases n with
  | zero => exact absurd hn (by simp)
  | succ m => rfl

/-- A successful `remove` preserves the invariant and appends the removed
position to the free chain, leaving the index and value storage sizes
unchanged. -/
theorem remove_step {α : Type} (N : Nat) (m : PagedSlotMap α) (k : IndexPair)
    (hInv : PagedSlotMap.Inv N m)
    (hk : m.indices[k.index]? = some k) :
    PagedSlotMap.Inv N (m.remove k).1
    ∧ freeChain (m.remove k).1.indices (m.remove k).1.free_list_head
        (m.remove k).1.free_list_size
      = freeChain m.indices m.free_list_head m.free_list_size ++ [k.index]
    ∧ (m.remove k).1.indices.length = m.indices.length
    ∧ (m.remove k).1.values.length = m.values.length
    ∧ (m.remove k).1.free_list_size = m.free_list_size + 1 := by
  obtain ⟨hN, hLen, hLive, hND, hRange, hMem, hTail⟩ := hInv
  have hkl : k.index < m.indices.length := (List.getElem?_eq_some_iff.mp hk).1
  have hkgetD : m.indices.getD k.index default = k := by
    rw [List.getD_eq_getElem?_getD, hk]
    rfl
  have hknotin : k.index ∉ freeChain m.indices m.free_list_head m.free_list_size := by
    intro hin
    exact ((hMem k.index hkl).mpr hin) (by rw [hkgetD])
  have hsne : (if k.index = 0 then 1 else 0) ≠ k.index := by
    by_cases h0 : k.index = 0
    · rw [if_pos h0, h0]; omega
    · rw [if_neg h0]; omega
  rcases Nat.eq_zero_or_pos m.free_list_size with hn | hn
  · -- empty free list: push_free_idx takes the head-initialising branch
    have hchain0 : freeChain m.indices m.free_list_head m.free_list_size = [] := by
      rw [hn]
      rfl
    have hrw : (m.remove k).1 =
        ⟨m.indices.set k.index ⟨if k.index = 0 then 1 else 0, k.generation⟩,
         m.values.set k.index none, k.index, k.index, 1⟩ := by
      simp [PagedSlotMap.remove, hk, PagedSlotMap.push_free_idx, hn]
    rw [hrw, hchain0]
    refine ⟨⟨hN, ?_, ?_, ?_, ?_, ?_, ?_⟩, ?_, ?_, ?_, ?_⟩
    · simpa [List.length_set] using hLen
    · -- liveness
      intro i hi
      rw [List.length_set] at hi
      by_cases hik : i = k.index
      · subst hik
        rw [list_getD_set_self _ _ _ _ hkl, list_getD_set_self _ _ _ _ (lt_of_lt_of_le hkl hLen)]
        simpa using hsne
      · rw [list_getD_set_ne _ _ _ _ _ fun hX => hik hX.symm,
          list_getD_set_ne _ _ _ _ _ fun hX => hik hX.symm]
        exact hLive i hi
    · -- nodup of [k.index]
      show ((k.index : Nat) :: freeChain _ _ 0).Nodup
      simp [freeChain]
    · intro j hj
      show j < (m.indices.set _ _).length
      rw [List.length_set]
      have : j = k.index := by simpa [freeChain] using hj
      rw [this]; exact hkl
    · intro i hi
      rw [List.length_set] at hi
      by_cases hik : i = k.index
      · subst hik
        rw [list_getD_set_self _ _ _ _ hkl]
        simpa [freeChain] using hsne
      · rw [list_getD_set_ne _ _ _ _ _ fun hX => hik hX.symm]
        have hdead := hMem i hi
        rw [hchain0] at hdead
        constructor
        · intro hX
          exact absurd (hdead.mp hX) (List.not_mem_nil i)
        · intro hX
          have hX' : i = k.index := by simpa [freeChain] using hX
          exact absurd hX' hik
    · intro _
      rfl
    · rfl
    · rw [List.length_set]
    · rw [List.length_set]
    · rw [hn]
  · -- non-empty free list: push_free_idx appends after the current tail
    obtain ⟨n', hn'⟩ : ∃ n', m.free_list_size = n' + 1 := ⟨m.free_list_size - 1, by omega⟩
    obtain ⟨ys, hys⟩ := List.getLast?_eq_some_iff.mp (hTail hn)
    have htmem : m.free_list_tail ∈ freeChain m.indices m.free_list_head m.free_list_size := by
      rw [hys]
      simp
    have htlen : m.free_list_tail < m.indices.length := hRange _ htmem
    have htne : m.free_list_tail ≠ k.index := fun hX => hknotin (hX ▸ htmem)
    have htnotys : m.free_list_tail ∉ ys := by
      have hnd := hND
      rw [hys, List.nodup_append] at hnd
      intro hX
      exact hnd.2.2 hX (by simp)
    have hrw : (m.remove k).1 =
        ⟨((m.indices.set k.index ⟨if k.index = 0 then 1 else 0, k.generation⟩).set
            m.free_list_tail
            ⟨k.index,
              ((m.indices.set k.index
                  ⟨if k.index = 0 then 1 else 0, k.generation⟩).getD m.free_list_tail
                default).generation⟩),
         m.values.set k.index none, m.free_list_head, k.index, m.free_list_size + 1⟩ := by
      simp [PagedSlotMap.remove, hk, PagedSlotMap.push_free_idx, hn]
    set ind1 := m.indices.set k.index ⟨if k.index = 0 then 1 else 0, k.generation⟩ with hind1
    set ind2 := ind1.set m.free_list_tail
      ⟨k.index, (ind1.getD m.free_list_tail default).generation⟩ with hind2
    have hgetkx : ind2.getD k.index default = ⟨if k.index = 0 then 1 else 0, k.generation⟩ := by
      rw [hind2, list_getD_set_ne _ _ _ _ _ htne, hind1, list_getD_set_self _ _ _ _ hkl]
    have hgett : ind2.getD m.free_list_tail default
        = ⟨k.index, (ind1.getD m.free_list_tail default).generation⟩ := by
      rw [hind2, list_getD_set_self]
      rw [hind1, List.length_set]
      exact htlen
    have hgetother : ∀ j, j ≠ k.index → j ≠ m.free_list_tail →
        ind2.getD j default = m.indices.getD j default := by
      intro j hjk hjt
      rw [hind2, list_getD_set_ne _ _ _ _ _ fun hX => hjt hX.symm,
        hind1, list_getD_set_ne _ _ _ _ _ fun hX => hjk hX.symm]
    have hagree : ∀ j ∈ (freeChain m.indices m.free_list_head m.free_list_size).dropLast,
        (ind2.getD j default).index = (m.indices.getD j default).index := by
      intro j hj
      rw [hys, List.dropLast_concat] at hj
      have hjt : j ≠ m.free_list_tail := fun hX => htnotys (hX ▸ hj)
      have hjk : j ≠ k.index := fun hX =>
        hknotin (hX ▸ (by rw [hys]; exact List.mem_append.mpr (Or.inl hj)))
      rw [hgetother j hjk hjt]
    have hc1 : freeChain ind2 m.free_list_head m.free_list_size
        = freeChain m.indices m.free_list_head m.free_list_size :=
      freeChain_congr m.indices ind2 m.free_list_size m.free_list_head hagree
    have hfoll : followChain ind2 m.free_list_head n' = m.free_list_tail := by
      have h1 := freeChain_succ ind2 n' m.free_list_head
      rw [← hn', hc1, hys] at h1
      have h2 : some m.free_list_tail
          = some (followChain ind2 m.free_list_head n') := by
        rw [← List.getLast?_concat ys, h1, List.getLast?_concat]
      exact (Option.some.inj h2).symm
    have hchain' : freeChain ind2 m.free_list_head (m.free_list_size + 1)
        = freeChain m.indices m.free_list_head m.free_list_size ++ [k.index] := by
      rw [freeChain_succ ind2 m.free_list_size m.free_list_head, hc1]
      have hfs : followChain ind2 m.free_list_head m.free_list_size = k.index := by
        rw [hn', followChain_succ ind2 n' m.free_list_head, hfoll, hgett]
      rw [hfs]
    rw [hrw]
    refine ⟨⟨hN, ?_, ?_, ?_, ?_, ?_, ?_⟩, ?_, ?_, ?_, ?_⟩
    · show ind2.length ≤ (m.values.set k.index none).length
      rw [hind2, hind1]
      simpa [List.length_set] using hLen
    · -- liveness
      intro i hi
      show (ind2.getD i default).index = i ↔ ((m.values.set k.index none).getD i none).isSome
      rw [hind2, hind1, List.length_set, List.length_set] at hi
      by_cases hik : i = k.index
      · subst hik
        rw [hgetkx, list_getD_set_self _ _ _ _ (lt_of_lt_of_le hkl hLen)]
        simpa using hsne
      · rw [list_getD_set_ne _ _ _ _ _ fun hX => hik hX.symm]
        by_cases hit : i = m.free_list_tail
        · subst hit
          rw [hgett]
          have hdead : (m.indices.getD m.free_list_tail default).index ≠ m.free_list_tail :=
            (hMem m.free_list_tail hi).mpr htmem
          have hvnone : ((m.values.getD m.free_list_tail none).isSome : Prop) → False := by
            intro hX
            exact hdead ((hLive m.free_list_tail hi).mpr hX)
          constructor
          · intro hX
            exact absurd hX.symm htne
          · intro hX
            exact absurd hX hvnone
        · rw [hgetother i hik hit]
          exact hLive i hi
    · -- nodup
      show (freeChain ind2 m.free_list_head (m.free_list_size + 1)).Nodup
      rw [hchain', List.nodup_append]
      refine ⟨hND, by simp, ?_⟩
      intro a ha
      simp only [List.mem_singleton]
      intro hX
      exact hknotin (hX ▸ ha)
    · -- range
      intro j hj
      show j < ind2.length
      rw [hind2, hind1, List.length_set, List.length_set]
      rw [show freeChain ind2 m.free_list_head (m.free_list_size + 1)
          = freeChain m.indices m.free_list_head m.free_list_size ++ [k.index] from hchain'] at hj
      rcases List.mem_append.mp hj with hj1 | hj1
      · exact hRange j hj1
      · rw [List.mem_singleton.mp hj1]
        exact hkl
    · -- membership
      intro i hi
      show (ind2.getD i default).index ≠ i ↔
        i ∈ freeChain ind2 m.free_list_head (m.free_list_size + 1)
      rw [hind2, hind1, List.length_set, List.length_set] at hi
      rw [hchain']
      by_cases hik : i = k.index
      · subst hik
        rw [hgetkx]
        constructor
        · intro _
          rw [List.mem_append]
          exact Or.inr (by simp)
        · intro _
          exact hsne
      · by_cases hit : i = m.free_list_tail
        · subst hit
          rw [hgett]
          constructor
          · intro _
            rw [List.mem_append]
            exact Or.inl htmem
          · intro _
            exact fun hX => htne hX.symm
        · rw [hgetother i hik hit]
          rw [List.mem_append, List.mem_singleton]
          constructor
          · intro hX
            exact Or.inl ((hMem i hi).mp hX)
          · intro hX
            rcases hX with hX | hX
            · exact (hMem i hi).mpr hX
            · exact absurd hX hik
    · -- tail
      intro _
      show (freeChain ind2 m.free_list_head (m.free_list_size + 1)).getLast? = some k.index
      rw [hchain', List.getLast?_concat]
    · exact hchain'
    · show ind2.length = m.indices.length
      rw [hind2, hind1, List.length_set, List.length_set]
    · rw [List.length_set]
    · rfl

/-- With a nonempty free list, `push` pops the chain's head: the returned
handle reuses that position, the invariant is preserved, and no storage is
allocated. -/
theorem push_step {α : Type} (N : Nat) (m : PagedSlotMap α) (v : α)
    (hInv : PagedSlotMap.Inv N m) (hn : 0 < m.free_list_size) :
    PagedSlotMap.Inv N (PagedSlotMap.push N m v).1
    ∧ (PagedSlotMap.push N m v).2.index = m.free_list_head
    ∧ freeChain (PagedSlotMap.push N m v).1.indices
        (PagedSlotMap.push N m v).1.free_list_head
        (PagedSlotMap.push N m v).1.free_list_size
      = (freeChain m.indices m.free_list_head m.free_list_size).tail
    ∧ (PagedSlotMap.push N m v).1.indices.length = m.indices.length
    ∧ (PagedSlotMap.push N m v).1.values.length = m.values.length
    ∧ (PagedSlotMap.push N m v).1.free_list_size = m.free_list_size - 1 := by
  obtain ⟨hN, hLen, hLive, hND, hRange, hMem, hTail⟩ := hInv
  obtain ⟨n', hn'⟩ : ∃ n', m.free_list_size = n' + 1 := ⟨m.free_list_size - 1, by omega⟩
  have hchainshape : freeChain m.indices m.free_list_head m.free_list_size
      = m.free_list_head
        :: freeChain m.indices (m.indices.getD m.free_list_head default).index n' := by
    rw [hn']
    rfl
  have hhmem : m.free_list_head ∈ freeChain m.indices m.free_list_head m.free_list_size := by
    rw [hchainshape]
    exact List.mem_cons_self _ _
  have hhlen : m.free_list_head < m.indices.length := hRange _ hhmem
  have hhnotrest : m.free_list_head
      ∉ freeChain m.indices (m.indices.getD m.free_list_head default).index n' := by
    have hnd := hND
    rw [hchainshape, List.nodup_cons] at hnd
    exact hnd.1
  have hrw : (PagedSlotMap.push N m v).1 =
      ⟨m.indices.set m.free_list_head
        ⟨m.free_list_head,
          ((m.indices.getD m.free_list_head default).next_generation).generation⟩,
       m.values.set m.free_list_head (some v),
       (m.indices.getD m.free_list_head default).index, m.free_list_tail,
       m.free_list_size - 1⟩ := by
    simp [PagedSlotMap.push, Nat.pos_iff_ne_zero.mp hn, IndexPair.from_raw_parts]
  have hrw2 : (PagedSlotMap.push N m v).2.index = m.free_list_head := by
    simp [PagedSlotMap.push, Nat.pos_iff_ne_zero.mp hn, IndexPair.from_raw_parts]
  set ind' := m.indices.set m.free_list_head
    ⟨m.free_list_head,
      ((m.indices.getD m.free_list_head default).next_generation).generation⟩ with hind'
  have hgeth : ind'.getD m.free_list_head default
      = ⟨m.free_list_head,
          ((m.indices.getD m.free_list_head default).next_generation).generation⟩ := by
    rw [hind', list_getD_set_self _ _ _ _ hhlen]
  have hgetother : ∀ j, j ≠ m.free_list_head →
      ind'.getD j default = m.indices.getD j default := by
    intro j hj
    rw [hind', list_getD_set_ne _ _ _ _ _ fun hX => hj hX.symm]
  have hc : freeChain ind' (m.indices.getD m.free_list_head default).index n'
      = freeChain m.indices (m.indices.getD m.free_list_head default).index n' := by
    apply freeChain_congr
    intro j hj
    have hjrest := (List.dropLast_sublist _).subset hj
    exact congrArg IndexPair.index (hgetother j fun hX => hhnotrest (hX ▸ hjrest))
  rw [hrw, hrw2]
  refine ⟨⟨hN, ?_, ?_, ?_, ?_, ?_, ?_⟩, rfl, ?_, ?_, ?_, ?_⟩
  · show ind'.length ≤ (m.values.set m.free_list_head (some v)).length
    rw [hind']
    simpa [List.length_set] using hLen
  · intro i hi
    show (ind'.getD i default).index = i
      ↔ ((m.values.set m.free_list_head (some v)).getD i none).isSome
    rw [hind', List.length_set] at hi
    by_cases hih : i = m.free_list_head
    · subst hih
      rw [hgeth, list_getD_set_self _ _ _ _ (lt_of_lt_of_le hhlen hLen)]
      simp
    · rw [hgetother i hih, list_getD_set_ne _ _ _ _ _ fun hX => hih hX.symm]
      exact hLive i hi
  · show (freeChain ind' (m.indices.getD m.free_list_head default).index
        (m.free_list_size - 1)).Nodup
    rw [hn', Nat.add_sub_cancel, hc]
    have hnd := hND
    rw [hchainshape, List.nodup_cons] at hnd
    exact hnd.2
  · intro j hj
    show j < ind'.length
    rw [hind', List.length_set]
    rw [hn', Nat.add_sub_cancel, hc] at hj
    refine hRange j ?_
    rw [hchainshape]
    exact List.mem_cons_of_mem _ hj
  · intro i hi
    show (ind'.getD i default).index ≠ i
      ↔ i ∈ freeChain ind' (m.indices.getD m.free_list_head default).index
          (m.free_list_size - 1)
    rw [hind', List.length_set] at hi
    rw [hn', Nat.add_sub_cancel, hc]
    by_cases hih : i = m.free_list_head
    · subst hih
      rw [hgeth]
      constructor
      · intro hX
        exact absurd rfl hX
      · intro hX
        exact absurd hX hhnotrest
    · rw [hgetother i hih]
      have hmem := hMem i hi
      rw [hchainshape] at hmem
      constructor
      · intro hX
        rcases List.mem_cons.mp (hmem.mp hX) with hX1 | hX1
        · exact absurd hX1 hih
        · exact hX1
      · intro hX
        exact hmem.mpr (List.mem_cons_of_mem _ hX)
  · intro hpos
    show (freeChain ind' (m.indices.getD m.free_list_head default).index
        (m.free_list_size - 1)).getLast? = some m.free_list_tail
    rw [hn', Nat.add_sub_cancel, hc]
    replace hpos : 0 < n' := by simpa [hn', Nat.add_sub_cancel] using hpos
    obtain ⟨zs, hzs⟩ := List.getLast?_eq_some_iff.mp (hTail hn)
    rw [hchainshape] at hzs
    cases zs with
    | nil =>
      rw [List.nil_append] at hzs
      injection hzs with h1 h2
      have hL := freeChain_length m.indices n'
        (m.indices.getD m.free_list_head default).index
      rw [h2] at hL
      simp at hL
      omega
    | cons z zs' =>
      rw [List.cons_append] at hzs
      injection hzs with h1 h2
      rw [h2, List.getLast?_concat]
  · show freeChain ind' (m.indices.getD m.free_list_head default).index
        (m.free_list_size - 1)
      = (freeChain m.indices m.free_list_head m.free_list_size).tail
    rw [hchainshape, hn', Nat.add_sub_cancel, hc]
    rfl
  · rw [hind', List.length_set]
  · rw [List.length_set]
  · rfl

/-- Removing a list of keys, each removal succeeding, appends their positions
to the free chain in removal order. -/
theorem removeAll_spec {α : Type} (N : Nat) :
    ∀ (ks : List IndexPair) (m : PagedSlotMap α),
      PagedSlotMap.Inv N m →
      (∀ o ∈ (m.removeAll ks).2, o.isSome) →
      PagedSlotMap.Inv N (m.removeAll ks).1
      ∧ freeChain (m.removeAll ks).1.indices (m.removeAll ks).1.free_list_head
          (m.removeAll ks).1.free_list_size
        = freeChain m.indices m.free_list_head m.free_list_size ++ ks.map IndexPair.index
      ∧ (m.removeAll ks).1.indices.length = m.indices.length
      ∧ (m.removeAll ks).1.values.length = m.values.length
      ∧ (m.removeAll ks).1.free_list_size = m.free_list_size + ks.length := by
  intro ks
  induction ks with
  | nil =>
    intro m hInv _
    exact ⟨hInv, by simp [PagedSlotMap.removeAll], rfl, rfl, rfl⟩
  | cons k ks ih =>
    intro m hInv hsucc
    have h1 : (m.remove k).2.isSome := by
      apply hsucc
      show (m.remove k).2 ∈ (m.removeAll (k :: ks)).2
      simp [PagedSlotMap.removeAll]
    have hk : m.indices[k.index]? = some k := by
      cases hh : m.indices[k.index]? with
      | none => simp [PagedSlotMap.remove, hh] at h1
      | some index =>
        by_cases hik : index = k
        · rw [hik]
        · simp [PagedSlotMap.remove, hh, hik] at h1
    obtain ⟨hI1, hC1, hL1, hV1, hS1⟩ := remove_step N m k hInv hk
    have hsuccrest : ∀ o ∈ ((m.remove k).1.removeAll ks).2, o.isSome := by
      intro o ho
      apply hsucc
      show o ∈ (m.removeAll (k :: ks)).2
      show o ∈ (m.remove k).2 :: ((m.remove k).1.removeAll ks).2
      exact List.mem_cons_of_mem _ ho
    obtain ⟨hI2, hC2, hL2, hV2, hS2⟩ := ih (m.remove k).1 hI1 hsuccrest
    refine ⟨hI2, ?_, ?_, ?_, ?_⟩
    · show freeChain ((m.remove k).1.removeAll ks).1.indices
          ((m.remove k).1.removeAll ks).1.free_list_head
          ((m.remove k).1.removeAll ks).1.free_list_size = _
      rw [hC2, hC1, List.map_cons, List.append_assoc]
      rfl
    · show ((m.remove k).1.removeAll ks).1.indices.length = _
      rw [hL2, hL1]
    · show ((m.remove k).1.removeAll ks).1.values.length = _
      rw [hV2, hV1]
    · show ((m.remove k).1.removeAll ks).1.free_list_size = _
      rw [hS2, hS1, List.length_cons]
      omega

/-- Pushing at most `free_list_size` values pops the chain's prefix in order,
allocating nothing. -/
theorem pushAll_spec {α : Type} (N : Nat) :
    ∀ (vs : List α) (m : PagedSlotMap α),
      PagedSlotMap.Inv N m →
      vs.length ≤ m.free_list_size →
      PagedSlotMap.Inv N (PagedSlotMap.pushAll N m vs).1
      ∧ (PagedSlotMap.pushAll N m vs).2.map IndexPair.index
        = (freeChain m.indices m.free_list_head m.free_list_size).take vs.length
      ∧ (PagedSlotMap.pushAll N m vs).1.indices.length = m.indices.length
      ∧ (PagedSlotMap.pushAll N m vs).1.values.length = m.values.length
      ∧ (PagedSlotMap.pushAll N m vs).1.free_list_size
        = m.free_list_size - vs.length := by
  intro vs
  induction vs with
  | nil =>
    intro m hInv _
    exact ⟨hInv, rfl, rfl, rfl, rfl⟩
  | cons v vs ih =>
    intro m hInv hle
    rw [List.length_cons] at hle
    have hn : 0 < m.free_list_size := by omega
    obtain ⟨hI1, hH1, hC1, hL1, hV1, hS1⟩ := push_step N m v hInv hn
    obtain ⟨hI2, hH2, hL2, hV2, hS2⟩ :=
      ih (PagedSlotMap.push N m v).1 hI1 (by rw [hS1]; omega)
    refine ⟨hI2, ?_, ?_, ?_, ?_⟩
    · show ((PagedSlotMap.push N m v).2
          :: (PagedSlotMap.pushAll N (PagedSlotMap.push N m v).1 vs).2).map
          IndexPair.index = _
      rw [List.map_cons, hH2, hC1, hH1]
      conv_rhs => rw [freeChain_cons m.indices m.free_list_head m.free_list_size hn]
      rw [List.length_cons, List.take_succ_cons]
    · show (PagedSlotMap.pushAll N (PagedSlotMap.push N m v).1 vs).1.indices.length = _
      rw [hL2, hL1]
    · show (PagedSlotMap.pushAll N (PagedSlotMap.push N m v).1 vs).1.values.length = _
      rw [hV2, hV1]
    · show (PagedSlotMap.pushAll N (PagedSlotMap.push N m v).1 vs).1.free_list_size = _
      rw [hS2, hS1, List.length_cons]
      omega

/-- C3 (amended with the free list initially empty): on a well-formed map
whose free list is empty, removing `k` live slots (each removal succeeding)
and then pushing `k` values reuses exactly the `k` freed positions in FIFO
order — the pushed handles carry the removed indices in removal order — and
allocates no new storage: the index array and the (flattened) page array keep
their lengths.  The counterexample theorem shows the original unconditional
statement fails when free slots pre-exist. -/
theorem paged_fifo_reuse_of_all_live {α : Type} (N : Nat) (m : PagedSlotMap α)
    (ks : List IndexPair) (vs : List α)
    (hInv : PagedSlotMap.Inv N m)
    (h0 : m.free_list_size = 0)
    (hsucc : ∀ o ∈ (m.removeAll ks).2, o.isSome)
    (hlen : vs.length = ks.length) :
    (PagedSlotMap.pushAll N (m.removeAll ks).1 vs).2.map IndexPair.index
      = ks.map IndexPair.index
    ∧ (PagedSlotMap.pushAll N (m.removeAll ks).1 vs).1.indices.length
      = m.indices.length
    ∧ (PagedSlotMap.pushAll N (m.removeAll ks).1 vs).1.values.length
      = m.values.length := by
  obtain ⟨hI1, hC1, hL1, hV1, hS1⟩ := removeAll_spec N ks m hInv hsucc
  rw [h0] at hS1
  have hchain1 : freeChain (m.removeAll ks).1.indices (m.removeAll ks).1.free_list_head
      (m.removeAll ks).1.free_list_size = ks.map IndexPair.index := by
    rw [hC1, h0]
    rfl
  obtain ⟨hI2, hH2, hL2, hV2, hS2⟩ :=
    pushAll_spec N vs (m.removeAll ks).1 hI1 (by rw [hS1, hlen]; omega)
  refine ⟨?_, ?_, ?_⟩
  · rw [hH2, hchain1, hlen]
    simp
  · rw [hL2, hL1]
  · rw [hV2, hV1]

/-- An all-live two-slot map for the C3 witness. -/
def mFifo : PagedSlotMap Nat := (PagedSlotMap.pushAll 64 PagedSlotMap.new [10, 20]).1

/-- Witness for C3: removing both slots of `mFifo` then pushing two values
returns handles with indices 0, 1 and leaves storage sizes unchanged. -/
theorem paged_fifo_reuse_of_all_live_witness :
    (PagedSlotMap.Inv 64 mFifo ∧ mFifo.free_list_size = 0
      ∧ ∀ o ∈ (mFifo.removeAll [⟨0, 1⟩, ⟨1, 1⟩]).2, o.isSome)
    ∧ (PagedSlotMap.pushAll 64 (mFifo.removeAll [⟨0, 1⟩, ⟨1, 1⟩]).1 [30, 40]).2.map
        IndexPair.index = [0, 1]
    ∧ (PagedSlotMap.pushAll 64 (mFifo.removeAll [⟨0, 1⟩, ⟨1, 1⟩]).1 [30, 40]).1.indices.length
      = 2
    ∧ (PagedSlotMap.pushAll 64 (mFifo.removeAll [⟨0, 1⟩, ⟨1, 1⟩]).1 [30, 40]).1.values.length
      = 64 :=
  ⟨⟨by decide, by decide, by decide⟩,
   (paged_fifo_reuse_of_all_live 64 mFifo [⟨0, 1⟩, ⟨1, 1⟩] [30, 40]
      (by decide) (by decide) (by decide) (by decide)).1,
   (paged_fifo_reuse_of_all_live 64 mFifo [⟨0, 1⟩, ⟨1, 1⟩] [30, 40]
      (by decide) (by decide) (by decide) (by decide)).2.1,
   (paged_fifo_reuse_of_all_live 64 mFifo [⟨0, 1⟩, ⟨1, 1⟩] [30, 40]
      (by decide) (by decide) (by decide) (by decide)).2.2⟩
